import Mathlib

/-!
# Verification of the Japanese segmenter core

Shallow embedding of `crates/segmenter/src/{tokenizer,lattice,dictionary}.rs`.

Conventions of the embedding:
* Rust `usize`/`u32` become `Nat`; no arithmetic here ever approaches the
  machine-word range, and no wrapping arithmetic occurs in the source.
* Rust `f32` scores become `Nat`.  Every score the program computes is a
  nonnegative integer: a sum of the constants 1, 15, 5, 4, 2, 8 multiplied by
  `len^2` or `len^3`, and `find_path` only ever adds such values.  `f32`
  represents these integers exactly (below `2^24`, far beyond the regime the
  spec reasons about) and its order on them is the integer order, so exact
  natural-number arithmetic is the faithful model of every comparison the
  code makes.
* A Rust panic (out-of-bounds index, `unwrap` on `None`) is modelled as
  `Option.none`; fallible pipelines are written in the `Option` monad.
* Strings are `List Nat` of Unicode code points.  The source addresses text
  by code-point index (`char_indices().nth(i)`) and only ever slices at
  code-point boundaries, so the byte layer is semantically invisible.
* The `NODE_ID_NONE` / `NODE_ID_BEGIN` sentinels of `lattice.rs` (all-ones
  `usize` and its predecessor) are modelled as the tagged type `PrevId`;
  the spec (§9, Sentinel identifiers) states a tagged variant is an
  equivalent encoding.  End buckets, which in the source hold plain node
  ids together with the seeded `NODE_ID_BEGIN`, are lists of `EndEntry`.
-/

namespace Segmenter

/-! ## Character classes

`categorize_word` in `tokenizer.rs` matches four regexes.  Three use the
Unicode script properties `\p{Katakana}`, `\p{Hiragana}`, `\p{Han}` of the
`regex` crate; the fourth is the explicit negated class
`[^々一-龯ァ-ヺヽヾぁ-ゔゝゞー]`.  The script predicates below transcribe the
Unicode `Scripts.txt` ranges for the three scripts. -/

/-- Code-point predicate for the Unicode script property `Katakana`
(`\p{Katakana}` in the `regex` crate). -/
def isKatakanaScript (c : Nat) : Bool :=
  (0x30A1 ≤ c && c ≤ 0x30FA) || (0x30FD ≤ c && c ≤ 0x30FF) ||
  (0x31F0 ≤ c && c ≤ 0x31FF) || (0x32D0 ≤ c && c ≤ 0x32FE) ||
  (0x3300 ≤ c && c ≤ 0x3357) || (0xFF66 ≤ c && c ≤ 0xFF6F) ||
  (0xFF71 ≤ c && c ≤ 0xFF9D) ||
  (0x1AFF0 ≤ c && c ≤ 0x1AFF3) || (0x1AFF5 ≤ c && c ≤ 0x1AFFB) ||
  (0x1AFFD ≤ c && c ≤ 0x1AFFE) || c = 0x1B000 ||
  (0x1B120 ≤ c && c ≤ 0x1B122) || c = 0x1B155 ||
  (0x1B164 ≤ c && c ≤ 0x1B167)

/-- Code-point predicate for the Unicode script property `Hiragana`
(`\p{Hiragana}` in the `regex` crate). -/
def isHiraganaScript (c : Nat) : Bool :=
  (0x3041 ≤ c && c ≤ 0x3096) || (0x309D ≤ c && c ≤ 0x309F) ||
  (0x1B001 ≤ c && c ≤ 0x1B11F) || c = 0x1B132 ||
  (0x1B150 ≤ c && c ≤ 0x1B152) || c = 0x1F200

/-- Code-point predicate for the Unicode script property `Han`
(`\p{Han}` in the `regex` crate). -/
def isHanScript (c : Nat) : Bool :=
  (0x2E80 ≤ c && c ≤ 0x2E99) || (0x2E9B ≤ c && c ≤ 0x2EF3) ||
  (0x2F00 ≤ c && c ≤ 0x2FD5) || c = 0x3005 || c = 0x3007 ||
  (0x3021 ≤ c && c ≤ 0x3029) || (0x3038 ≤ c && c ≤ 0x303B) ||
  (0x3400 ≤ c && c ≤ 0x4DBF) || (0x4E00 ≤ c && c ≤ 0x9FFF) ||
  (0xF900 ≤ c && c ≤ 0xFA6D) || (0xFA70 ≤ c && c ≤ 0xFAD9) ||
  (0x20000 ≤ c && c ≤ 0x2A6DF) || (0x2A700 ≤ c && c ≤ 0x2B739) ||
  (0x2B740 ≤ c && c ≤ 0x2B81D) || (0x2B820 ≤ c && c ≤ 0x2CEA1) ||
  (0x2CEB0 ≤ c && c ≤ 0x2EBE0) || (0x2EBF0 ≤ c && c ≤ 0x2EE5D) ||
  (0x2F800 ≤ c && c ≤ 0x2FA1D) || (0x30000 ≤ c && c ≤ 0x3134A) ||
  (0x31350 ≤ c && c ≤ 0x323AF)

/-- Membership in the explicit character class `々一-龯ァ-ヺヽヾぁ-ゔゝゞー`
that the fourth regex of `REGEX_CATEGORIES` negates: `々` U+3005,
`一-龯` U+4E00..U+9FAF, `ァ-ヺ` U+30A1..U+30FA, `ヽ` U+30FD, `ヾ` U+30FE,
`ぁ-ゔ` U+3041..U+3094, `ゝ` U+309D, `ゞ` U+309E, `ー` U+30FC. -/
def inNonWordNegClass (c : Nat) : Bool :=
  c = 0x3005 || (0x4E00 ≤ c && c ≤ 0x9FAF) ||
  (0x30A1 ≤ c && c ≤ 0x30FA) || c = 0x30FD || c = 0x30FE ||
  (0x3041 ≤ c && c ≤ 0x3094) || c = 0x309D || c = 0x309E || c = 0x30FC

/-- A regex of the shape `^X+$` (one of `REGEX_CATEGORIES`) matches a word
iff the word is nonempty and every code point satisfies the class `X`. -/
def reMatch (p : Nat → Bool) (w : List Nat) : Bool :=
  !w.isEmpty && w.all p

/-- `WordCategory` of `tokenizer.rs`. -/
inductive WordCategory where
  | Katakana
  | Kana
  | Word
  | NonWord
deriving DecidableEq, Repr

/-- `categorize_word` of `tokenizer.rs`: the `RegexSet` is matched against
the word and the first matching entry of `REGEX_CATEGORIES`, in order, gives
the category; if none matches the function falls through to `NonWord`. -/
def categorize_word (word : List Nat) : WordCategory :=
  if reMatch isKatakanaScript word then .Katakana
  else if reMatch (fun c => isKatakanaScript c || isHiraganaScript c) word then .Kana
  else if reMatch (fun c => isHanScript c || isHiraganaScript c) word then .Word
  else if reMatch (fun c => !inNonWordNegClass c) word then .NonWord
  else .NonWord

/-! ## Dictionary (`dictionary.rs`)

`PartOfSpeech` is a `u32` bitset and `Tag` a `u16` bitset; the scorer only
tests single-bit flags with `contains`, which for a one-bit flag is a bit
test.  We keep the bitsets as `Nat` and test bits. -/

/-- Bit index of `PartOfSpeech::PARTICLE` (`1 << 22`). -/
def particleBit : Nat := 22

/-- Bit index of `PartOfSpeech::EXPRESSION` (`1 << 11`). -/
def expressionBit : Nat := 11

/-- Bit index of `Tag::IDIOMATIC_EXPRESSION` (`1 << 8`). -/
def idiomaticExpressionBit : Nat := 8

/-- `DictionaryEntry` of `dictionary.rs`. -/
structure DictionaryEntry where
  term_id : Nat
  pos : Nat
  tag : Nat
deriving DecidableEq, Repr, Inhabited

/-- `InflectionType` of `dictionary.rs`; carried by `TermEntry`, never
branched on by the tokenizer core. -/
inductive InflectionType where
  | DictionaryForm | Negative | Te | NegativeTe | Past | NegativePast
  | Potential | NegativePotential | Imperative | ImperativeNegative
  | Causative | CausativePassive | NegativeCausativePassive
  | NegativeCausative | Passive | NegativePassive
deriving DecidableEq, Repr

/-- `TermEntry` of `dictionary.rs`. -/
structure TermEntry where
  entry_index : Nat
  inflection_type : InflectionType
deriving DecidableEq, Repr

/-- `Dictionary` of `dictionary.rs`.  The two `HashMap`s are modelled as
association lists; the tokenizer only calls `get`, whose result does not
depend on hash order, and a `HashMap` holds each key at most once so
first-key lookup is the faithful model. -/
structure Dictionary where
  entries : List DictionaryEntry
  kanji : List (List Nat × List TermEntry)
  kana : List (List Nat × List TermEntry)

/-- `HashMap::get` on the association-list model. -/
def assocGet (m : List (List Nat × List TermEntry)) (k : List Nat) :
    Option (List TermEntry) :=
  (m.find? (fun p => p.1 = k)).map (fun p => p.2)

/-- The empty dictionary (`Dictionary::new`). -/
def emptyDict : Dictionary := ⟨[], [], []⟩

/-! ## Scoring (`Tokenizer::get_score`) -/

/-- `Tokenizer::get_score`: starts from `1.0`, adds `15.0` for the Katakana
category, adds the dictionary bonuses when an entry is present, then
multiplies by `text_len` raised to `3.0` for the Word category and `2.0`
otherwise. -/
def get_score (text_len : Nat) (category : WordCategory)
    (dictionary_entry : Option DictionaryEntry) : Nat :=
  let score : Nat := 1
  let score : Nat := if category = .Katakana then score + 15 else score
  let score : Nat :=
    match dictionary_entry with
    | none => score
    | some de =>
      let score := score + 5
      let score := if de.pos.testBit particleBit then score + 4 else score
      let score := if de.pos.testBit expressionBit then score + 2 else score
      let score := if de.tag.testBit idiomaticExpressionBit then score + 8 else score
      score
  let power : Nat := if category = .Word then 3 else 2
  score * text_len ^ power

/-! ## Lattice (`lattice.rs`) -/

/-- `LatticeNode` of `lattice.rs`. -/
structure LatticeNode where
  term_id : Option Nat
  start : Nat
  stop : Nat   -- field `end` in the source; `end` is reserved in Lean
  score : Nat
deriving DecidableEq, Repr

/-- Value held in `previous_nodes` during `find_path`: the sentinels
`NODE_ID_NONE`, `NODE_ID_BEGIN` (all-ones `usize` and its predecessor in the
source) or a real node id.  Tagged encoding per spec §9. -/
inductive PrevId where
  | none
  | begin
  | node (id : Nat)
deriving DecidableEq, Repr

/-- Element of an end bucket: `end[0]` is seeded with `NODE_ID_BEGIN` at
construction, all other pushes are real node ids. -/
inductive EndEntry where
  | begin
  | node (id : Nat)
deriving DecidableEq, Repr

/-- `Lattice` of `lattice.rs`.  `ends` is the field `end` of the source. -/
structure Lattice where
  length : Nat
  nodes : List LatticeNode
  start : List (List Nat)
  ends : List (List EndEntry)
deriving Repr

/-- `Lattice::new(node_count, length)`.  `node_count` is only a capacity
hint in the source (`Vec::with_capacity`) and does not affect behaviour.
When `length == 0` the source executes `end[0].push(NODE_ID_BEGIN)` on a
zero-length vector and panics with an index-out-of-bounds: modelled as
`none`. -/
def latticeNew (node_count length : Nat) : Option Lattice :=
  let _ := node_count
  if length = 0 then none
  else some
    { length := length
      nodes := []
      start := List.replicate length []
      ends := (List.replicate length ([] : List EndEntry)).set 0 [.begin] }

/-- `Lattice::add_node`: appends the fresh node id to `start[node.start]`
and `end[node.end]`, then pushes the node.  The source panics when
`node.start` or `node.end` is out of bucket range; `List.set` is a no-op
there instead, and `buildLattice_nodes_bounds` below shows the tokenizer
never inserts such a node. -/
def add_node (lat : Lattice) (node : LatticeNode) : Lattice :=
  let node_id := lat.nodes.length
  { lat with
    start := lat.start.set node.start ((lat.start.getD node.start []) ++ [node_id])
    ends := lat.ends.set node.stop ((lat.ends.getD node.stop []) ++ [EndEntry.node node_id])
    nodes := lat.nodes ++ [node] }

/-- One step of the candidate-selection loop of `find_path`: a left entry
qualifies only when its `previous` is not `NODE_ID_NONE`, and strict `>`
against the running maximum means ties keep the earlier entry.  Reading
`previous_nodes[NODE_ID_BEGIN]` or any out-of-range id is a panic
(`none`). -/
def selectStep (prev : List PrevId) (ts : List Nat) (acc : Option Nat × Nat)
    (e : EndEntry) : Option (Option Nat × Nat) :=
  match e with
  | .begin => Option.none
  | .node l =>
    if h : l < prev.length ∧ l < ts.length then
      if prev.get ⟨l, h.1⟩ ≠ PrevId.none then
        let prev_total_score := ts.get ⟨l, h.2⟩
        if acc.2 < prev_total_score then some (some l, prev_total_score)
        else some acc
      else some acc
    else Option.none

/-- The candidate-selection loop of `find_path` (used verbatim for the
propagation step at each right node and for the termination scan): running
maximum over the bucket starting from `(None, 0.0)`. -/
def selectLeft (prev : List PrevId) (ts : List Nat) (entries : List EndEntry) :
    Option (Option Nat × Nat) :=
  entries.foldlM (selectStep prev ts) (Option.none, (0 : Nat))

/-- Propagation body of `find_path` for one right node `r` at position `i`:
select the best left node from the end bucket; if one qualifies, set
`previous[r]` to it and add its total score to `total_scores[r]`, else leave
the state unchanged.  Writing at an out-of-range `r` is a panic. -/
def processRight (endBucket : List EndEntry) (st : List PrevId × List Nat)
    (r : Nat) : Option (List PrevId × List Nat) :=
  (selectLeft st.1 st.2 endBucket).bind fun sel =>
    match sel.1 with
    | Option.none => some st
    | some m =>
      if r < st.1.length ∧ r < st.2.length then
        some (st.1.set r (PrevId.node m), st.2.set r (st.2.getD r 0 + sel.2))
      else Option.none

/-- Backward walk of `find_path`: from the chosen ending node, follow
`previous` until the entry is `NODE_ID_BEGIN`, collecting ids in backward
order (the source then reverses).  Hitting `NODE_ID_NONE` means the next
iteration indexes `previous_nodes[NODE_ID_NONE]`, a panic; running out of
fuel models divergence. -/
def walk (prev : List PrevId) : Nat → Nat → Option (List Nat)
  | _, 0 => Option.none
  | cur, fuel + 1 =>
    match prev[cur]? with
    | some .begin => some [cur]
    | some (.node l) => (walk prev l fuel).map (fun ids => cur :: ids)
    | some .none => Option.none
    | Option.none => Option.none

/-- `Lattice::find_path`.  Empty result for a zero-length lattice or one
with no nodes; otherwise: initialize `total_scores` with the node scores and
`previous` with `NONE` except `BEGIN` for the nodes of `start[0]`; propagate
positions `1..length`; scan `end[length-1]` with the same selection loop;
reconstruct the path backward and reverse it. -/
def find_path (lat : Lattice) : Option (List LatticeNode) :=
  if lat.length = 0 || lat.nodes.isEmpty then some []
  else
    (lat.start[0]?).bind fun b0 =>
    (b0.foldlM
        (fun p i => if i < p.length then some (p.set i PrevId.begin) else Option.none)
        (List.replicate lat.nodes.length PrevId.none)).bind fun prev1 =>
    ((List.range' 1 (lat.length - 1)).foldlM
        (fun st i =>
          (lat.start[i]?).bind fun sb =>
          (lat.ends[i]?).bind fun eb =>
          sb.foldlM (processRight eb) st)
        (prev1, lat.nodes.map (fun n => n.score))).bind fun st =>
    (lat.ends[lat.length - 1]?).bind fun endBucket =>
    (selectLeft st.1 st.2 endBucket).bind fun best =>
    match best.1 with
    | Option.none => some []
    | some m =>
      (walk st.1 m (lat.nodes.length + 1)).bind fun ids =>
      ids.reverse.mapM (fun i => lat.nodes[i]?)

/-! ## Tokenizer (`tokenizer.rs`) -/

/-- `Token` of `tokenizer.rs` (the `surface` of the spec is the field
`token` in the source). -/
structure Token where
  term_id : Option Nat
  token : List Nat
deriving DecidableEq, Repr

/-- The code-point range `[a, b)` of `text`: the source computes the byte
offsets of code points `a` and `b` with `char_indices().nth` and slices;
at code-point granularity that is drop-then-take. -/
def extract (text : List Nat) (a b : Nat) : List Nat :=
  (text.drop a).take (b - a)

/-- `Tokenizer::inner_loop`: for `end` in `(start+1)..length` the closure
receives `(substring, start, end)` with `substring = text[start..end)` in
code points.  Modelled as the list of closure arguments in call order. -/
def inner_loop (text : List Nat) (start length : Nat) :
    List (List Nat × Nat × Nat) :=
  (List.range' (start + 1) (length - (start + 1))).map
    (fun e => (extract text start e, start, e))

/-- One single-character category of the `CATEGORIES` table inside
`Tokenizer::inner_loop_unknown_term`. -/
structure UnknownCategory where
  invoke : Bool
  group : Bool
  func : Nat → Bool

/-- The nine-entry `CATEGORIES` table of `inner_loop_unknown_term`, in
source order: Space, Kanji, Symbol, Numeric, Alpha, Hiragana, Katakana,
Greek, Cyrillic. -/
def unknownCategories : List UnknownCategory :=
  [ -- Space
    { invoke := false, group := true
      func := fun c => c = 0x0020 || c = 0x00D0 || c = 0x0009 || c = 0x000B || c = 0x000A },
    -- Kanji
    { invoke := false, group := false
      func := fun c =>
        (0x2E80 ≤ c && c ≤ 0x2EF3) || (0x2F00 ≤ c && c ≤ 0x2FD5) ||
        c = 0x3005 || c = 0x3007 || (0x3400 ≤ c && c ≤ 0x4DB5) ||
        (0x4E00 ≤ c && c ≤ 0x9FA5) || (0xF900 ≤ c && c ≤ 0xFA2D) ||
        (0xFA30 ≤ c && c ≤ 0xFA6A) },
    -- Symbol
    { invoke := true, group := true
      func := fun c =>
        (0x0021 ≤ c && c ≤ 0x002F) || (0x003A ≤ c && c ≤ 0x0040) ||
        (0x005B ≤ c && c ≤ 0x0060) || (0x007B ≤ c && c ≤ 0x007E) ||
        (0x00A1 ≤ c && c ≤ 0x00BF) || (0xFF01 ≤ c && c ≤ 0xFF0F) ||
        (0xFF1A ≤ c && c ≤ 0xFF1F) || (0xFF3B ≤ c && c ≤ 0xFF40) ||
        (0xFF5B ≤ c && c ≤ 0xFF65) || (0xFFE0 ≤ c && c ≤ 0xFFEF) ||
        (0x2000 ≤ c && c ≤ 0x206F) || (0x20A0 ≤ c && c ≤ 0x20CF) ||
        (0x20D0 ≤ c && c ≤ 0x20FF) || (0x2100 ≤ c && c ≤ 0x214F) ||
        (0x2190 ≤ c && c ≤ 0x21FF) || (0x2200 ≤ c && c ≤ 0x22FF) ||
        (0x2300 ≤ c && c ≤ 0x23FF) || (0x2460 ≤ c && c ≤ 0x24FF) ||
        (0x2501 ≤ c && c ≤ 0x257F) || (0x2580 ≤ c && c ≤ 0x259F) ||
        (0x25A0 ≤ c && c ≤ 0x25FF) || (0x2600 ≤ c && c ≤ 0x26FE) ||
        (0x2700 ≤ c && c ≤ 0x27BF) || (0x27F0 ≤ c && c ≤ 0x27FF) ||
        (0x27C0 ≤ c && c ≤ 0x27EF) || (0x2800 ≤ c && c ≤ 0x28FF) ||
        (0x2900 ≤ c && c ≤ 0x297F) || (0x2B00 ≤ c && c ≤ 0x2BFF) ||
        (0x2A00 ≤ c && c ≤ 0x2AFF) || (0x3300 ≤ c && c ≤ 0x33FF) ||
        (0x3200 ≤ c && c ≤ 0x32FE) || (0x3000 ≤ c && c ≤ 0x303F) ||
        (0xFE30 ≤ c && c ≤ 0xFE4F) || (0xFE50 ≤ c && c ≤ 0xFE6B) },
    -- Numeric
    { invoke := true, group := true
      func := fun c =>
        (0x0030 ≤ c && c ≤ 0x0039) || (0xFF10 ≤ c && c ≤ 0xFF19) ||
        (0x2070 ≤ c && c ≤ 0x209F) || (0x2150 ≤ c && c ≤ 0x218F) },
    -- Alpha
    { invoke := false, group := true
      func := fun c =>
        (0x0041 ≤ c && c ≤ 0x005A) || (0x0061 ≤ c && c ≤ 0x007A) ||
        (0x00C0 ≤ c && c ≤ 0x00FF) || (0x0100 ≤ c && c ≤ 0x017F) ||
        (0x0180 ≤ c && c ≤ 0x0236) || (0x1E00 ≤ c && c ≤ 0x1EF9) ||
        (0xFF21 ≤ c && c ≤ 0xFF3A) || (0xFF41 ≤ c && c ≤ 0xFF5A) },
    -- Hiragana
    { invoke := false, group := true
      func := fun c => 0x3041 ≤ c && c ≤ 0x309F },
    -- Katakana
    { invoke := true, group := true
      func := fun c =>
        (0x30A1 ≤ c && c ≤ 0x30FF) || (0x31F0 ≤ c && c ≤ 0x31FF) ||
        (0xFF66 ≤ c && c ≤ 0xFF9D) || (0xFF9E ≤ c && c ≤ 0xFF9F) },
    -- Greek
    { invoke := true, group := true
      func := fun c => 0x0374 ≤ c && c ≤ 0x03FB },
    -- Cyrillic
    { invoke := true, group := true
      func := fun c => (0x0400 ≤ c && c ≤ 0x04F9) || (0x0500 ≤ c && c ≤ 0x050F) } ]

/-- Length of the matching run in the `group` branch of
`inner_loop_unknown_term`: the source zips `(start+1)..length` with the
code points from position `start` on and counts consecutive matches, so the
run over `text.drop start` is capped at `length - (start+1)` iterations. -/
def countRun (p : Nat → Bool) : Nat → List Nat → Nat
  | 0, _ => 0
  | _ + 1, [] => 0
  | cap + 1, c :: cs => if p c then countRun p cap cs + 1 else 0

/-- `Tokenizer::inner_loop_unknown_term`, as the list of closure arguments
`(substring, start, end)` in call order.  Early return when
`start + 1 >= length`.  In the `group` branch the matched span is
`[start, start+count)` but `end_pos` is the byte offset of the *last
matched* code point, so the substring handed to the closure is
`text[start .. start+count-1)`; in the non-`group` branch `end_pos` is the
byte offset of the code point at `start` itself, so the substring is
empty. -/
def inner_loop_unknown_term (force : Bool) (text : List Nat)
    (start length : Nat) : List (List Nat × Nat × Nat) :=
  if start + 1 ≥ length then []
  else
    unknownCategories.flatMap fun category =>
      if !force && !category.invoke then []
      else if category.group then
        let count := countRun category.func (length - (start + 1)) (text.drop start)
        if count = 0 then []
        else [(extract text start (start + count - 1), start, start + count)]
      else
        match text.get? start with
        | some c =>
          if category.func c then [(extract text start start, start, start + 1)]
          else []
        | Option.none => []

/-- The dictionary lookup of `Tokenizer::tokenize`'s first closure: a
`Kana`/`Katakana` substring is looked up in the kana map, a `Word`
substring in the kanji map, a `NonWord` substring not at all. -/
def dictLookup (dict : Dictionary) (category : WordCategory)
    (substring : List Nat) : Option (List TermEntry) :=
  match category with
  | .Kana | .Katakana => assocGet dict.kana substring
  | .Word => assocGet dict.kanji substring
  | .NonWord => Option.none

/-- Dictionary-candidate nodes generated at one start position: the first
closure of `Tokenizer::tokenize` applied to each `inner_loop` argument;
each `TermEntry` returned by the lookup yields one node.
`entries[term_entry.entry_index]` panics when the index is out of range
(`none`). -/
def dictNodesAt (dict : Dictionary) (text : List Nat) (start length : Nat) :
    Option (List LatticeNode) :=
  ((inner_loop text start length).mapM fun (arg : List Nat × Nat × Nat) =>
    match dictLookup dict (categorize_word arg.1) arg.1 with
    | Option.none => some []
    | some term_entries =>
      term_entries.mapM fun (te : TermEntry) =>
        (dict.entries.get? te.entry_index).map fun (de : DictionaryEntry) =>
          { term_id := some de.term_id
            start := arg.2.1
            stop := arg.2.2
            score := get_score (arg.2.2 - arg.2.1) (categorize_word arg.1)
              (some de) : LatticeNode }
  ).map List.flatten

/-- Unknown-word nodes generated at one start position: the second closure
of `Tokenizer::tokenize` applied to each `inner_loop_unknown_term`
argument: a node with no `term_id`, scored on the substring's category. -/
def unknownNodesAt (force : Bool) (text : List Nat) (start length : Nat) :
    List LatticeNode :=
  (inner_loop_unknown_term force text start length).map fun arg =>
    { term_id := Option.none
      start := arg.2.1
      stop := arg.2.2
      score := get_score (arg.2.2 - arg.2.1) (categorize_word arg.1) Option.none }

/-- The body of `tokenize`'s loop over start positions: dictionary
candidates first (in enumeration order), then — with `force` exactly when
no dictionary node was inserted (`!found_any_term`) — the unknown-word
candidates, all added to the lattice in that order. -/
def processStart (dict : Dictionary) (text : List Nat) (lat : Lattice)
    (start : Nat) : Option Lattice :=
  (dictNodesAt dict text start text.length).map fun dictNodes =>
    let unknownNodes := unknownNodesAt dictNodes.isEmpty text start text.length
    (dictNodes ++ unknownNodes).foldl add_node lat

/-- The lattice `Tokenizer::tokenize` builds for `text`: a fresh lattice
for `length` code points (node-count hint `length*(length+1)/2`), then the
per-position candidate generation for every start position. -/
def buildLattice (dict : Dictionary) (text : List Nat) : Option Lattice :=
  (latticeNew (text.length * (text.length + 1) / 2) text.length).bind fun lat0 =>
    (List.range text.length).foldlM (processStart dict text) lat0

/-- The node path `tokenize` obtains from `Lattice::find_path`. -/
def tokenizePath (dict : Dictionary) (text : List Nat) :
    Option (List LatticeNode) :=
  (buildLattice dict text).bind find_path

/-- `Tokenizer::tokenize`: build the lattice, find the best path, and
materialize each path node as a token over `text[node.start..node.end)`.
The materialization calls `char_indices().nth(..).unwrap()` on both
offsets, which panics when an offset is not a valid code-point index. -/
def tokenize (dict : Dictionary) (text : List Nat) : Option (List Token) :=
  (tokenizePath dict text).bind fun path =>
    path.mapM fun node =>
      if node.start < text.length ∧ node.stop < text.length then
        some { term_id := node.term_id, token := extract text node.start node.stop }
      else Option.none

/-! ## Derived notions used by the claims -/

/-- Concatenation of the `surface` fields of a `tokenize` result. -/
def surfaceConcat (r : Option (List Token)) : Option (List Nat) :=
  r.map (fun ts => (ts.map (fun t => t.token)).flatten)

/-- The base factor of the score as the specification words it: `1.0`,
plus `15.0` for the Katakana category, plus — when a dictionary entry is
present — `5.0`, `4.0` for the particle bit, `2.0` for the expression bit
and `8.0` for the idiomatic-expression tag bit. -/
def scoreBase (category : WordCategory) (e : Option DictionaryEntry) : Nat :=
  1 + (if category = .Katakana then 15 else 0) +
    (match e with
     | Option.none => 0
     | some de =>
       5 + (if de.pos.testBit particleBit then 4 else 0) +
         (if de.pos.testBit expressionBit then 2 else 0) +
         (if de.tag.testBit idiomaticExpressionBit then 8 else 0))

/-- The exponent of the score as the specification words it: `3.0` for the
Word category, `2.0` otherwise. -/
def scorePower (category : WordCategory) : Nat :=
  if category = .Word then 3 else 2

/-- Closed form of `get_score` (shared helper). -/
theorem get_score_eq (text_len : Nat) (category : WordCategory)
    (e : Option DictionaryEntry) :
    get_score text_len category e =
      scoreBase category e * text_len ^ scorePower category := by
  cases e <;>
    simp only [get_score, scoreBase, scorePower] <;>
    split_ifs <;> ring

/-- The base factor is at least one (shared helper). -/
theorem one_le_scoreBase (category : WordCategory) (e : Option DictionaryEntry) :
    1 ≤ scoreBase category e := by
  cases e <;> simp only [scoreBase] <;> split_ifs <;> norm_num

/-! ## Claim theorems -/

/-- Claim C1.  The claim states that concatenating the `surface` fields of
`tokenize(s)` yields exactly `s` for every input `s`.  The code violates
this: candidate enumeration stops at `end = length - 1` and `find_path`
terminates in `end[length - 1]`, so no token ever covers the last code
point.  On the input `"ABC"` (code points 65, 66, 67) with the empty
dictionary, `tokenize` returns the single token `"AB"` and the
concatenation of surfaces is `"AB"`, not `"ABC"`. -/
theorem tokenize_surface_concat_drops_last_codepoint :
    surfaceConcat (tokenize emptyDict [65, 66, 67]) = some [65, 66] ∧
      surfaceConcat (tokenize emptyDict [65, 66, 67]) ≠ some [65, 66, 67] := by
  constructor
  · decide
  · decide

/-- Claim C2.  The claim states that `tokenize` never errors and that
`tokenize("")` returns an empty sequence.  The code violates this on the
empty string: `Lattice::new` is called with `length = 0` and executes
`end[0].push(NODE_ID_BEGIN)` on a zero-length vector, an index-out-of-bounds
panic, modelled here as `none` — for every dictionary. -/
theorem tokenize_empty_input_panics :
    ∀ d : Dictionary, tokenize d [] = Option.none :=
  fun _ => rfl

/-- Claim C4.  The claim states that with a dictionary containing no surface
of the input, `tokenize("カタカナ")` returns exactly one token whose surface
is the whole string `"カタカナ"` (U+30AB U+30BF U+30AB U+30CA) with no
`term_id`.  The code instead returns one unknown-word token covering only
`"カタカ"`: the grouped katakana fallback span can never reach past position
`length - 1`, so the final `ナ` is dropped. -/
theorem tokenize_katakana_drops_last_codepoint :
    tokenize emptyDict [0x30AB, 0x30BF, 0x30AB, 0x30CA] =
        some [{ term_id := Option.none, token := [0x30AB, 0x30BF, 0x30AB] }] ∧
      [0x30AB, 0x30BF, 0x30AB] ≠ [0x30AB, 0x30BF, 0x30AB, 0x30CA] := by
  constructor
  · decide
  · decide

/-- Claim C5.  For every length, category and optional dictionary entry,
`get_score` returns `base * length ^ power`, where `base` starts at 1,
gains 15 for the Katakana category and, when an entry is present, gains 5,
plus 4 for the particle bit of `pos`, plus 2 for the expression bit of
`pos`, plus 8 for the idiomatic-expression bit of `tag`; `power` is 3 for
the Word category and 2 otherwise. -/
theorem get_score_closed_form (text_len : Nat) (category : WordCategory)
    (e : Option DictionaryEntry) :
    get_score text_len category e =
      scoreBase category e * text_len ^ scorePower category :=
  get_score_eq text_len category e

/-- Claim C6.  For every length at least 1, every category and every
optional dictionary entry, `get_score` is strictly positive, so the `0.0`
initial cutoff of `find_path` never excludes a candidate node whose score
was produced by `get_score`. -/
theorem get_score_pos (text_len : Nat) (category : WordCategory)
    (e : Option DictionaryEntry) (h : 1 ≤ text_len) :
    0 < get_score text_len category e := by
  rw [get_score_eq]
  exact Nat.mul_pos (lt_of_lt_of_le Nat.zero_lt_one (one_le_scoreBase category e))
    (Nat.pos_pow_of_pos _ h)

/-- Witness for C6 at length 2, Word category, no entry. -/
theorem get_score_pos_witness :
    1 ≤ 2 ∧ 0 < get_score 2 WordCategory.Word Option.none :=
  ⟨by decide, get_score_pos 2 WordCategory.Word Option.none (by decide)⟩

/-- Claim C9.  For a fixed dictionary, two calls of `tokenize` on equal
input strings return equal token sequences: the embedding exposes
`tokenize` as a pure function of exactly the dictionary and the input, and
nothing else. -/
theorem tokenize_deterministic (d : Dictionary) (s t : List Nat)
    (h : s = t) : tokenize d s = tokenize d t := by
  rw [h]

/-- Witness for C9 on the one-character input `"猫"`. -/
theorem tokenize_deterministic_witness :
    tokenize emptyDict [0x732B] = tokenize emptyDict [0x732B] :=
  tokenize_deterministic emptyDict [0x732B] [0x732B] rfl

/-! ## Claim C8: the classification rules of `categorize_word` -/

/-- First-match evaluation of an ordered rule list, `NonWord` when no rule
matches — the evaluation scheme claim C8 describes. -/
def categorizeByRules (rules : List ((List Nat → Bool) × WordCategory))
    (w : List Nat) : WordCategory :=
  ((rules.find? (fun r => r.1 w)).map (fun r => r.2)).getD .NonWord

/-- The four rules with the literal quantification of claim C8: each reads
"every code point satisfies the class", which is vacuously true of the
empty substring. -/
def claimRulesUniversal : List ((List Nat → Bool) × WordCategory) :=
  [ (fun w => w.all isKatakanaScript, .Katakana),
    (fun w => w.all (fun c => isKatakanaScript c || isHiraganaScript c), .Kana),
    (fun w => w.all (fun c => isHanScript c || isHiraganaScript c), .Word),
    (fun w => w.all (fun c => !inNonWordNegClass c), .NonWord) ]

/-- The four rules amended with the nonemptiness that the `+` of the source
regexes imposes: a rule matches only a nonempty substring all of whose code
points satisfy its class. -/
def claimRulesNonempty : List ((List Nat → Bool) × WordCategory) :=
  [ (reMatch isKatakanaScript, .Katakana),
    (reMatch (fun c => isKatakanaScript c || isHiraganaScript c), .Kana),
    (reMatch (fun c => isHanScript c || isHiraganaScript c), .Word),
    (reMatch (fun c => !inNonWordNegClass c), .NonWord) ]

/-- Counterexample to claim C8 as stated: on the empty substring each rule's
"every code point" condition holds vacuously, so first-match over the
claimed rules yields `Katakana`, but `categorize_word` (whose regexes
require at least one code point) returns `NonWord`. -/
theorem categorize_word_empty_counterexample :
    categorizeByRules claimRulesUniversal [] = WordCategory.Katakana ∧
      categorize_word [] = WordCategory.NonWord ∧
      categorizeByRules claimRulesUniversal [] ≠ categorize_word [] := by
  refine ⟨by decide, by decide, by decide⟩

/-- Claim C8, amended: with each rule additionally requiring the substring
to be nonempty (as the `+` in the source regexes does), `categorize_word`
evaluates the four rules in the fixed order Katakana, Kana, Word, NonWord,
returns the first that matches, and returns `NonWord` when none matches. -/
theorem categorize_word_eq_first_match (w : List Nat) :
    categorize_word w = categorizeByRules claimRulesNonempty w := by
  simp only [categorize_word, categorizeByRules, claimRulesNonempty, List.find?]
  split_ifs with h1 h2 h3 h4 <;> simp [*]

/-! ## Claim C3: the predecessor selection of `find_path`

The selection loop is a left fold with a running strict maximum; the claim
describes its result as an argmax with a cutoff and earliest-wins ties.
`firstMaxAbove` renders the claim's description; the lemmas relate the fold
to it. -/

/-- Helper: `find?` only depends on the predicate's values on the list. -/
theorem find?_congr_pred {α : Type} (p q : α → Bool) :
    ∀ l : List α, (∀ x ∈ l, p x = q x) → l.find? p = l.find? q := by
  intro l
  induction l with
  | nil => intro _; rfl
  | cons a as ih =>
    intro h
    have ha := h a (List.mem_cons_self a as)
    simp only [List.find?, ha]
    cases q a with
    | true => rfl
    | false => exact ih fun x hx => h x (List.mem_cons_of_mem a hx)

/-- Helper: a nonempty list has an element achieving the maximum value. -/
theorem exists_max_elem {α : Type} (f : α → Nat) :
    ∀ Q : List α, Q ≠ [] → ∃ j, j ∈ Q ∧ ∀ m ∈ Q, f m ≤ f j := by
  intro Q
  induction Q with
  | nil => intro h; exact absurd rfl h
  | cons a as ih =>
    intro _
    rcases eq_or_ne as [] with h | h
    · subst h
      exact ⟨a, List.mem_cons_self a [], by
        intro m hm
        rcases List.mem_cons.mp hm with rfl | hm
        · exact le_refl _
        · exact absurd hm (List.not_mem_nil m)⟩
    · obtain ⟨j, hj, hmax⟩ := ih h
      rcases le_or_lt (f j) (f a) with hle | hlt
      · refine ⟨a, List.mem_cons_self a as, ?_⟩
        intro m hm
        rcases List.mem_cons.mp hm with rfl | hm
        · exact le_refl _
        · exact le_trans (hmax m hm) hle
      · refine ⟨j, List.mem_cons_of_mem a hj, ?_⟩
        intro m hm
        rcases List.mem_cons.mp hm with rfl | hm
        · exact le_of_lt hlt
        · exact hmax m hm

/-- The element claim C3 describes, over an arbitrary candidate list: the
first (earliest-inserted) candidate whose value exceeds the cutoff and is
greatest among all candidates. -/
def firstMaxAbove {α : Type} (f : α → Nat) (cutoff : Nat) (Q : List α) :
    Option α :=
  Q.find? fun j => decide (cutoff < f j) && Q.all fun m => decide (f m ≤ f j)

/-- A head candidate not above the cutoff neither wins nor interferes. -/
theorem firstMaxAbove_cons_le {α : Type} (f : α → Nat) (c : Nat) (a : α)
    (Q : List α) (h : f a ≤ c) :
    firstMaxAbove f c (a :: Q) = firstMaxAbove f c Q := by
  unfold firstMaxAbove
  have hhead :
      (decide (c < f a) && (a :: Q).all fun m => decide (f m ≤ f a)) = false := by
    simp [Nat.not_lt.mpr h]
  simp only [List.find?, hhead]
  refine find?_congr_pred _ _ Q fun j _ => ?_
  by_cases hc : c < f j
  · have haj : f a ≤ f j := le_trans h (le_of_lt hc)
    simp [hc, haj, List.all_cons]
  · simp [hc]

/-- A head candidate strictly above the cutoff becomes the running maximum:
the final winner is the rest's winner above the new cutoff, or the head. -/
theorem firstMaxAbove_cons_lt {α : Type} (f : α → Nat) (c : Nat) (a : α)
    (Q : List α) (h : c < f a) :
    firstMaxAbove f c (a :: Q) = some ((firstMaxAbove f (f a) Q).getD a) := by
  by_cases hall : (Q.all fun m => decide (f m ≤ f a)) = true
  · have hhead :
        (decide (c < f a) && (a :: Q).all fun m => decide (f m ≤ f a)) = true := by
      simp [h, List.all_cons, hall]
    have hnone :
        Q.find? (fun j => decide (f a < f j) && Q.all fun m => decide (f m ≤ f j))
          = Option.none := by
      apply List.find?_eq_none.mpr
      intro j hj
      have hja : f j ≤ f a := of_decide_eq_true (List.all_eq_true.mp hall j hj)
      simp [Nat.not_lt.mpr hja]
    unfold firstMaxAbove
    rw [hnone]
    simp only [List.find?, hhead]
    rfl
  · obtain ⟨m, hm, hmgt⟩ : ∃ m ∈ Q, f a < f m := by
      by_contra hcon
      push_neg at hcon
      exact hall (List.all_eq_true.mpr fun m hm =>
        decide_eq_true (Nat.le_of_not_lt fun hlt => absurd hlt (by
          have := hcon m hm
          exact Nat.not_lt.mpr this)))
    have hallf : (Q.all fun m2 => decide (f m2 ≤ f a)) = false :=
      Bool.eq_false_iff.mpr hall
    have hhead :
        (decide (c < f a) && (a :: Q).all fun m2 => decide (f m2 ≤ f a)) = false := by
      simp [List.all_cons, hallf]
    unfold firstMaxAbove
    simp only [List.find?, hhead]
    have hcong : ∀ j ∈ Q,
        (decide (c < f j) && (a :: Q).all fun m2 => decide (f m2 ≤ f j)) =
        (decide (f a < f j) && Q.all fun m2 => decide (f m2 ≤ f j)) := by
      intro j hj
      rcases hQ : (Q.all fun m2 => decide (f m2 ≤ f j)) with _ | _
      · simp [List.all_cons, hQ]
      · have h1 : f m ≤ f j := of_decide_eq_true (List.all_eq_true.mp hQ m hm)
        have h2 : f a < f j := lt_of_lt_of_le hmgt h1
        have h3 : c < f j := lt_trans h h2
        simp [List.all_cons, hQ, h2, h3, le_of_lt h2]
    rw [find?_congr_pred _ _ Q hcong]
    have hne :
        Q.find? (fun j => decide (f a < f j) && Q.all fun m2 => decide (f m2 ≤ f j))
          ≠ Option.none := by
      intro hnone
      obtain ⟨j, hj, hmax⟩ := exists_max_elem f Q (by
        rintro rfl
        exact (List.not_mem_nil m) hm)
      refine (List.find?_eq_none.mp hnone j hj) ?_
      have hij : f a < f j := lt_of_lt_of_le hmgt (hmax m hm)
      simp only [Bool.and_eq_true, decide_eq_true_eq, List.all_eq_true]
      exact ⟨hij, fun x hx => hmax x hx⟩
    cases hfind :
        Q.find? (fun j => decide (f a < f j) && Q.all fun m2 => decide (f m2 ≤ f j)) with
    | none => exact absurd hfind hne
    | some j => rfl

/-- The left nodes of a bucket that qualify per claim C3: real node ids
whose `previous` is not `NODE_ID_NONE`, in bucket (insertion) order. -/
def qualifying (prev : List PrevId) (entries : List EndEntry) : List Nat :=
  entries.filterMap fun e =>
    match e with
    | .begin => Option.none
    | .node l => if prev.getD l PrevId.none ≠ PrevId.none then some l else Option.none

/-- The predecessor claim C3 describes, with an explicit cutoff: among the
qualifying left nodes, the earliest-inserted one whose running total score
exceeds the cutoff and is greatest. -/
def bestLeftFrom (prev : List PrevId) (ts : List Nat) (cutoff : Nat)
    (entries : List EndEntry) : Option Nat :=
  firstMaxAbove (fun l => ts.getD l 0) cutoff (qualifying prev entries)

/-- The claim's selection with the initial cutoff `0.0` of the source. -/
def bestLeftSpec (prev : List PrevId) (ts : List Nat)
    (entries : List EndEntry) : Option Nat :=
  bestLeftFrom prev ts 0 entries

/-- The selection fold of `find_path` computes `bestLeftFrom` with the
accumulator's score as cutoff (shared helper, generalized for the
induction). -/
theorem selectLeft_fold_eq (prev : List PrevId) (ts : List Nat) :
    ∀ (entries : List EndEntry) (mn : Option Nat) (ms : Nat),
      (∀ e ∈ entries, ∃ l, e = EndEntry.node l ∧ l < prev.length ∧ l < ts.length) →
      List.foldlM (selectStep prev ts) (mn, ms) entries =
        some (match bestLeftFrom prev ts ms entries with
              | Option.none => (mn, ms)
              | some l => (some l, ts.getD l 0)) := by
  intro entries
  induction entries with
  | nil =>
    intro mn ms _
    simp [bestLeftFrom, qualifying, firstMaxAbove]
  | cons e rest ih =>
    intro mn ms hv
    obtain ⟨l, rfl, hl1, hl2⟩ := hv e (List.mem_cons_self e rest)
    have hvrest := fun e he => hv e (List.mem_cons_of_mem _ he)
    have hgd : ts.getD l 0 = ts.get ⟨l, hl2⟩ := by
      rw [List.getD_eq_getElem?_getD, List.getElem?_eq_getElem hl2]
      rfl
    rw [List.foldlM_cons]
    by_cases hq : prev.get ⟨l, hl1⟩ ≠ PrevId.none
    · have hqd : prev.getD l PrevId.none ≠ PrevId.none := by
        rw [List.getD_eq_getElem?_getD, List.getElem?_eq_getElem hl1]
        exact hq
      have hcons : qualifying prev (EndEntry.node l :: rest) =
          l :: qualifying prev rest := by
        simp only [qualifying, List.filterMap_cons]
        rw [if_pos hqd]
      by_cases hlt : ms < ts.get ⟨l, hl2⟩
      · have hstep : selectStep prev ts (mn, ms) (EndEntry.node l) =
            some (some l, ts.get ⟨l, hl2⟩) := by
          simp only [selectStep]
          rw [dif_pos (And.intro hl1 hl2), if_pos hq, if_pos hlt]
        rw [hstep]
        show List.foldlM (selectStep prev ts) (some l, ts.get ⟨l, hl2⟩) rest = _
        rw [ih (some l) (ts.get ⟨l, hl2⟩) hvrest]
        rw [← hgd]
        have hlt2 : ms < ts.getD l 0 := by
          rw [hgd]
          exact hlt
        have hbest : bestLeftFrom prev ts ms (EndEntry.node l :: rest) =
            some ((bestLeftFrom prev ts (ts.getD l 0) rest).getD l) := by
          simp only [bestLeftFrom]
          rw [hcons, firstMaxAbove_cons_lt (fun x => ts.getD x 0) ms l
            (qualifying prev rest) hlt2]
        rw [hbest]
        cases hrest : bestLeftFrom prev ts (ts.getD l 0) rest with
        | none => rfl
        | some j => rfl
      · have hle2 : ts.getD l 0 ≤ ms := by
          rw [hgd]
          exact Nat.le_of_not_lt hlt
        have hstep : selectStep prev ts (mn, ms) (EndEntry.node l) =
            some (mn, ms) := by
          simp only [selectStep]
          rw [dif_pos (And.intro hl1 hl2), if_pos hq, if_neg hlt]
        rw [hstep]
        show List.foldlM (selectStep prev ts) (mn, ms) rest = _
        rw [ih mn ms hvrest]
        have hbest : bestLeftFrom prev ts ms (EndEntry.node l :: rest) =
            bestLeftFrom prev ts ms rest := by
          simp only [bestLeftFrom]
          rw [hcons, firstMaxAbove_cons_le (fun x => ts.getD x 0) ms l
            (qualifying prev rest) hle2]
        rw [hbest]
    · have hqd : ¬ prev.getD l PrevId.none ≠ PrevId.none := by
        rw [List.getD_eq_getElem?_getD, List.getElem?_eq_getElem hl1]
        exact hq
      have hcons : qualifying prev (EndEntry.node l :: rest) =
          qualifying prev rest := by
        simp only [qualifying, List.filterMap_cons]
        rw [if_neg hqd]
      have hstep : selectStep prev ts (mn, ms) (EndEntry.node l) =
          some (mn, ms) := by
        simp only [selectStep]
        rw [dif_pos (And.intro hl1 hl2), if_neg hq]
      rw [hstep]
      show List.foldlM (selectStep prev ts) (mn, ms) rest = _
      rw [ih mn ms hvrest]
      have hbest : bestLeftFrom prev ts ms (EndEntry.node l :: rest) =
          bestLeftFrom prev ts ms rest := by
        simp only [bestLeftFrom]
        rw [hcons]
      rw [hbest]

/-- Claim C3.  In the propagation of `find_path`, for a right node `r` and
the end bucket of its position: the chosen predecessor is the qualifying
left node (one with `previous` distinct from `NONE`) whose running total
score is strictly greatest, starting from an initial cutoff of `0.0` — so a
left node with non-positive total score never qualifies — with ties
resolved toward the earlier-inserted one; `r` then gets that node as
`previous` and its total score added.  If no left node qualifies, `r` keeps
its `previous` and total score unchanged. -/
theorem find_path_predecessor_selection
    (prev : List PrevId) (ts : List Nat) (entries : List EndEntry) (r : Nat)
    (hv : ∀ e ∈ entries, ∃ l, e = EndEntry.node l ∧ l < prev.length ∧ l < ts.length)
    (hr : r < prev.length ∧ r < ts.length) :
    processRight entries (prev, ts) r =
      some (match bestLeftSpec prev ts entries with
            | Option.none => (prev, ts)
            | some l =>
              (prev.set r (PrevId.node l), ts.set r (ts.getD r 0 + ts.getD l 0))) := by
  show (selectLeft prev ts entries).bind _ = _
  rw [selectLeft, selectLeft_fold_eq prev ts entries Option.none 0 hv]
  rw [bestLeftSpec]
  cases hbest : bestLeftFrom prev ts 0 entries with
  | none => rfl
  | some l =>
    show (if r < prev.length ∧ r < ts.length then _ else _) = _
    rw [if_pos hr]

/-- Witness for C3: a two-entry bucket where only node 0 qualifies
(`previous[1]` is `NONE`), so node 1's predecessor becomes node 0 and its
total score grows from 7 to 12. -/
theorem find_path_predecessor_selection_witness :
    processRight [EndEntry.node 0, EndEntry.node 1]
        ([PrevId.begin, PrevId.none], [5, 7]) 1 =
      some ([PrevId.begin, PrevId.node 0], [5, 12]) := by
  have h := find_path_predecessor_selection
    [PrevId.begin, PrevId.none] [5, 7] [EndEntry.node 0, EndEntry.node 1] 1
    (by
      intro e he
      rcases List.mem_cons.mp he with rfl | he2
      · exact ⟨0, rfl, by decide, by decide⟩
      rcases List.mem_cons.mp he2 with rfl | he3
      · exact ⟨1, rfl, by decide, by decide⟩
      exact absurd he3 (List.not_mem_nil e))
    (by decide)
  rw [h]
  decide

/-! ## Claims C10 and C7: lattice-wide invariants

Generic `Option`-monad fold/map lemmas first, then the bounds of every node
the tokenizer inserts, then the bucket well-formedness and predecessor
invariants that make the extracted path a contiguous chain. -/

/-- An invariant preserved by each step of an `Option`-valued left fold
holds for its result (shared helper). -/
theorem foldlM_option_inv {σ β : Type} (P : σ → Prop) (f : σ → β → Option σ) :
    ∀ (L : List β) (s s' : σ),
      (∀ a b, b ∈ L → ∀ a', f a b = some a' → P a → P a') →
      List.foldlM f s L = some s' → P s → P s' := by
  intro L
  induction L with
  | nil =>
    intro s s' _ h hP
    simp only [List.foldlM_nil] at h
    cases h
    exact hP
  | cons b L ih =>
    intro s s' hstep h hP
    rw [List.foldlM_cons] at h
    cases hfb : f s b with
    | none => rw [hfb] at h; exact absurd h (by simp)
    | some s1 =>
      rw [hfb] at h
      have h' : List.foldlM f s1 L = some s' := h
      exact ih s1 s' (fun a b2 hb2 => hstep a b2 (List.mem_cons_of_mem _ hb2)) h'
        (hstep s b (List.mem_cons_self _ _) s1 hfb hP)

/-- Every element of an `Option`-monad `mapM` result comes from some source
element (shared helper). -/
theorem mapM_mem_source {α β : Type} (f : α → Option β) :
    ∀ (L : List α) (out : List β), L.mapM f = some out →
      ∀ b ∈ out, ∃ a ∈ L, f a = some b := by
  intro L
  induction L with
  | nil =>
    intro out h b hb
    simp only [List.mapM_nil] at h
    cases h
    exact absurd hb (List.not_mem_nil b)
  | cons a L ih =>
    intro out h b hb
    rw [List.mapM_cons] at h
    cases hfa : f a with
    | none => rw [hfa] at h; exact absurd h (by simp)
    | some x =>
      rw [hfa] at h
      cases hml : L.mapM f with
      | none => rw [hml] at h; exact absurd h (by simp)
      | some xs =>
        rw [hml] at h
        have hout : x :: xs = out := by simpa using h
        subst hout
        rcases List.mem_cons.mp hb with rfl | hb2
        · exact ⟨a, List.mem_cons_self a L, hfa⟩
        · obtain ⟨a2, ha2, hfa2⟩ := ih xs hml b hb2
          exact ⟨a2, List.mem_cons_of_mem _ ha2, hfa2⟩

/-- Folding `add_node` appends exactly the folded nodes (shared helper). -/
theorem foldl_add_node_nodes :
    ∀ (ns : List LatticeNode) (lat : Lattice),
      (ns.foldl add_node lat).nodes = lat.nodes ++ ns := by
  intro ns
  induction ns with
  | nil => intro lat; simp
  | cons n ns ih =>
    intro lat
    rw [List.foldl_cons, ih]
    simp [add_node]

/-- The matching run never exceeds its iteration cap (shared helper). -/
theorem countRun_le (p : Nat → Bool) :
    ∀ (cap : Nat) (l : List Nat), countRun p cap l ≤ cap := by
  intro cap
  induction cap with
  | zero => intro l; cases l <;> simp [countRun]
  | succ c ihc =>
    intro l
    cases l with
    | nil => simp [countRun]
    | cons x xs =>
      simp only [countRun]
      split
      · exact Nat.succ_le_succ (ihc xs)
      · exact Nat.zero_le _

/-- Every `inner_loop` argument has the loop's start and an `end` in
`(start, length)` (shared helper). -/
theorem inner_loop_mem_bounds (text : List Nat) (start length : Nat) :
    ∀ arg ∈ inner_loop text start length,
      arg.2.1 = start ∧ start < arg.2.2 ∧ arg.2.2 < length := by
  intro arg harg
  unfold inner_loop at harg
  obtain ⟨e, he, rfl⟩ := List.mem_map.mp harg
  obtain ⟨i, hi, rfl⟩ := List.mem_range'.mp he
  refine ⟨rfl, ?_, ?_⟩
  · show start < start + 1 + 1 * i
    omega
  · show start + 1 + 1 * i < length
    omega

/-- Every `inner_loop_unknown_term` argument has the loop's start and an
`end` in `(start, length)` (shared helper). -/
theorem inner_loop_unknown_mem_bounds (force : Bool) (text : List Nat)
    (start length : Nat) :
    ∀ arg ∈ inner_loop_unknown_term force text start length,
      arg.2.1 = start ∧ start < arg.2.2 ∧ arg.2.2 < length := by
  intro arg harg
  simp only [inner_loop_unknown_term] at harg
  by_cases hsl : start + 1 ≥ length
  · rw [if_pos hsl] at harg
    exact absurd harg (List.not_mem_nil arg)
  rw [if_neg hsl] at harg
  obtain ⟨cat, -, harg2⟩ := List.mem_flatMap.mp harg
  split at harg2
  · exact absurd harg2 (List.not_mem_nil arg)
  split at harg2
  · split at harg2
    · exact absurd harg2 (List.not_mem_nil arg)
    · rename_i hcount
      rw [List.mem_singleton] at harg2
      subst harg2
      have hle := countRun_le cat.func (length - (start + 1)) (text.drop start)
      refine ⟨rfl, ?_, ?_⟩
      · show start < start + countRun cat.func (length - (start + 1)) (text.drop start)
        omega
      · show start + countRun cat.func (length - (start + 1)) (text.drop start) < length
        omega
  · split at harg2
    · rename_i c hget
      split at harg2
      · rw [List.mem_singleton] at harg2
        subst harg2
        refine ⟨rfl, ?_, ?_⟩
        · show start < start + 1
          omega
        · show start + 1 < length
          omega
      · exact absurd harg2 (List.not_mem_nil arg)
    · exact absurd harg2 (List.not_mem_nil arg)

/-- Every dictionary-candidate node at `start` spans `(start, end)` with
`start < end < length` (shared helper). -/
theorem dictNodesAt_mem_bounds (dict : Dictionary) (text : List Nat)
    (start : Nat) (dn : List LatticeNode)
    (h : dictNodesAt dict text start text.length = some dn) :
    ∀ n ∈ dn, n.start < n.stop ∧ n.stop < text.length := by
  intro n hn
  unfold dictNodesAt at h
  rcases Option.map_eq_some'.mp h with ⟨lists, hml, rfl⟩
  obtain ⟨li, hli, hnli⟩ := List.mem_flatten.mp hn
  obtain ⟨arg, harg, hfarg⟩ := mapM_mem_source _ _ lists hml li hli
  obtain ⟨heq, hstart, hstop⟩ := inner_loop_mem_bounds text start text.length arg harg
  revert hfarg
  cases hlk : dictLookup dict (categorize_word arg.1) arg.1 with
  | none =>
    intro hfarg
    have : li = [] := by simpa using hfarg
    subst this
    exact absurd hnli (List.not_mem_nil n)
  | some tes =>
    intro hfarg
    obtain ⟨te, -, hfte⟩ := mapM_mem_source _ tes li hfarg n hnli
    rcases Option.map_eq_some'.mp hfte with ⟨de, -, rfl⟩
    refine ⟨?_, ?_⟩
    · show arg.2.1 < arg.2.2
      omega
    · show arg.2.2 < text.length
      exact hstop

/-- Every unknown-word node at `start` spans `(start, end)` with
`start < end < length` (shared helper). -/
theorem unknownNodesAt_mem_bounds (force : Bool) (text : List Nat)
    (start : Nat) :
    ∀ n ∈ unknownNodesAt force text start text.length,
      n.start < n.stop ∧ n.stop < text.length := by
  intro n hn
  unfold unknownNodesAt at hn
  obtain ⟨arg, harg, rfl⟩ := List.mem_map.mp hn
  obtain ⟨heq, h1, h2⟩ :=
    inner_loop_unknown_mem_bounds force text start text.length arg harg
  refine ⟨?_, ?_⟩
  · show arg.2.1 < arg.2.2
    omega
  · show arg.2.2 < text.length
    exact h2

/-- Every node of the lattice `tokenize` builds satisfies
`start < end < length` (shared helper). -/
theorem buildLattice_nodes_bounds (dict : Dictionary) (text : List Nat)
    (lat : Lattice) (h : buildLattice dict text = some lat) :
    ∀ n ∈ lat.nodes, n.start < n.stop ∧ n.stop < text.length := by
  unfold buildLattice at h
  rcases Option.bind_eq_some.mp h with ⟨lat0, h0, hfold⟩
  have hP0 : ∀ n ∈ lat0.nodes, n.start < n.stop ∧ n.stop < text.length := by
    unfold latticeNew at h0
    split at h0
    · exact absurd h0 (by simp)
    · cases h0
      intro n hn
      exact absurd hn (List.not_mem_nil n)
  refine foldlM_option_inv
    (fun lat => ∀ n ∈ lat.nodes, n.start < n.stop ∧ n.stop < text.length)
    (processStart dict text) (List.range text.length) lat0 lat ?_ hfold hP0
  intro a b _ a' hstep hP
  unfold processStart at hstep
  rcases Option.map_eq_some'.mp hstep with ⟨dn, hdn, rfl⟩
  intro n hn
  rw [foldl_add_node_nodes] at hn
  rcases List.mem_append.mp hn with hmem | hmem
  · exact hP n hmem
  rcases List.mem_append.mp hmem with hdm | hum
  · exact dictNodesAt_mem_bounds dict text b dn hdn n hdm
  · exact unknownNodesAt_mem_bounds dn.isEmpty text b n hum

/-- Claim C10.  Every node inserted into the lattice `tokenize` builds for
an input of code-point length `N` satisfies `start < end` and
`end + 1 ≤ N` (that is, `end ≤ N − 1`: no candidate span, dictionary hit
or unknown-word fallback, ever ends at position `N`); consequently, for an
input of exactly one code point no node is inserted and `tokenize` returns
the empty sequence. -/
theorem tokenize_lattice_bounds (dict : Dictionary) (text : List Nat)
    (lat : Lattice) (h : buildLattice dict text = some lat) :
    (∀ n ∈ lat.nodes, n.start < n.stop ∧ n.stop + 1 ≤ text.length) ∧
      (text.length = 1 → lat.nodes = [] ∧ tokenize dict text = some []) := by
  constructor
  · intro n hn
    exact buildLattice_nodes_bounds dict text lat h n hn
  · intro hlen
    obtain ⟨c, rfl⟩ := List.length_eq_one.mp hlen
    have hb : buildLattice dict [c] =
        some (Lattice.mk 1 [] [[]] [[EndEntry.begin]]) := rfl
    rw [hb] at h
    cases h
    exact ⟨rfl, rfl⟩

/-- Witness for C10 on the one-character input `"猫"`: the built lattice is
node-free and `tokenize` returns the empty sequence. -/
theorem tokenize_lattice_bounds_witness :
    (∀ n ∈ (Lattice.mk 1 [] [[]] [[EndEntry.begin]]).nodes,
        n.start < n.stop ∧ n.stop + 1 ≤ [0x732B].length) ∧
      ([0x732B].length = 1 →
        (Lattice.mk 1 [] [[]] [[EndEntry.begin]]).nodes = [] ∧
          tokenize emptyDict [0x732B] = some []) :=
  tokenize_lattice_bounds emptyDict [0x732B]
    (Lattice.mk 1 [] [[]] [[EndEntry.begin]]) rfl

/-- Bucket well-formedness: every id in `start[i]` names a node whose
`start` is `i`, and every real node id in `end[i]` names a node whose `end`
is `i`.  `add_node` establishes this by construction. -/
def BucketsWF (lat : Lattice) : Prop :=
  (∀ i b, lat.start[i]? = some b → ∀ id ∈ b,
      ∃ nd : LatticeNode, lat.nodes[id]? = some nd ∧ nd.start = i) ∧
  (∀ i b, lat.ends[i]? = some b → ∀ l, EndEntry.node l ∈ b →
      ∃ nd : LatticeNode, lat.nodes[l]? = some nd ∧ nd.stop = i)

/-- `add_node` preserves bucket well-formedness (shared helper). -/
theorem add_node_wf (lat : Lattice) (nd : LatticeNode) (h : BucketsWF lat) :
    BucketsWF (add_node lat nd) := by
  obtain ⟨hs, he⟩ := h
  constructor
  · intro i b hb id hid
    simp only [add_node] at hb ⊢
    rw [List.getElem?_set] at hb
    by_cases hij : nd.start = i
    · rw [if_pos hij] at hb
      by_cases hr : nd.start < lat.start.length
      · rw [if_pos hr] at hb
        cases hb
        rcases List.mem_append.mp hid with hold | hnew
        · have hbold : lat.start[nd.start]? = some (lat.start.getD nd.start []) := by
            rw [List.getD_eq_getElem?_getD]
            cases hx : lat.start[nd.start]? with
            | none => exact absurd (List.getElem?_eq_none_iff.mp hx) (Nat.not_le.mpr hr)
            | some v => rfl
          obtain ⟨nodev, hnv, hnvs⟩ := hs nd.start _ hbold id hold
          have hlt : id < lat.nodes.length := (List.getElem?_eq_some_iff.mp hnv).1
          refine ⟨nodev, ?_, by rw [← hij]; exact hnvs⟩
          rw [List.getElem?_append_left hlt]
          exact hnv
        · have hidv : id = lat.nodes.length := by simpa using hnew
          subst hidv
          exact ⟨nd, List.getElem?_concat_length lat.nodes nd, hij⟩
      · rw [if_neg hr] at hb
        exact absurd hb (by simp)
    · rw [if_neg hij] at hb
      obtain ⟨nodev, hnv, hnvs⟩ := hs i b hb id hid
      have hlt : id < lat.nodes.length := (List.getElem?_eq_some_iff.mp hnv).1
      refine ⟨nodev, ?_, hnvs⟩
      rw [List.getElem?_append_left hlt]
      exact hnv
  · intro i b hb l hl
    simp only [add_node] at hb ⊢
    rw [List.getElem?_set] at hb
    by_cases hij : nd.stop = i
    · rw [if_pos hij] at hb
      by_cases hr : nd.stop < lat.ends.length
      · rw [if_pos hr] at hb
        cases hb
        rcases List.mem_append.mp hl with hold | hnew
        · have hbold : lat.ends[nd.stop]? = some (lat.ends.getD nd.stop []) := by
            rw [List.getD_eq_getElem?_getD]
            cases hx : lat.ends[nd.stop]? with
            | none => exact absurd (List.getElem?_eq_none_iff.mp hx) (Nat.not_le.mpr hr)
            | some v => rfl
          obtain ⟨nodev, hnv, hnvs⟩ := he nd.stop _ hbold l hold
          have hlt : l < lat.nodes.length := (List.getElem?_eq_some_iff.mp hnv).1
          refine ⟨nodev, ?_, by rw [← hij]; exact hnvs⟩
          rw [List.getElem?_append_left hlt]
          exact hnv
        · have hlv : EndEntry.node l = EndEntry.node lat.nodes.length := by
            simpa using hnew
          cases hlv
          exact ⟨nd, List.getElem?_concat_length lat.nodes nd, hij⟩
      · rw [if_neg hr] at hb
        exact absurd hb (by simp)
    · rw [if_neg hij] at hb
      obtain ⟨nodev, hnv, hnvs⟩ := he i b hb l hl
      have hlt : l < lat.nodes.length := (List.getElem?_eq_some_iff.mp hnv).1
      refine ⟨nodev, ?_, hnvs⟩
      rw [List.getElem?_append_left hlt]
      exact hnv

/-- A fresh lattice is bucket well-formed (shared helper). -/
theorem latticeNew_wf (nc len : Nat) (lat : Lattice)
    (h : latticeNew nc len = some lat) : BucketsWF lat := by
  unfold latticeNew at h
  split at h
  · exact absurd h (by simp)
  · cases h
    constructor
    · intro i b hb id hid
      rcases List.getElem?_eq_some_iff.mp hb with ⟨hlt, hbv⟩
      rw [List.getElem_replicate] at hbv
      subst hbv
      exact absurd hid (List.not_mem_nil id)
    · intro i b hb l hl
      rw [List.getElem?_set] at hb
      by_cases h0 : (0 : Nat) = i
      · rw [if_pos h0] at hb
        split at hb
        · cases hb
          exact EndEntry.noConfusion (List.mem_singleton.mp hl)
        · exact absurd hb (by simp)
      · rw [if_neg h0] at hb
        rcases List.getElem?_eq_some_iff.mp hb with ⟨hlt, hbv⟩
        rw [List.getElem_replicate] at hbv
        subst hbv
        exact absurd hl (List.not_mem_nil _)

/-- Folding `add_node` preserves bucket well-formedness (shared helper). -/
theorem foldl_add_node_wf :
    ∀ (ns : List LatticeNode) (lat : Lattice),
      BucketsWF lat → BucketsWF (ns.foldl add_node lat) := by
  intro ns
  induction ns with
  | nil => intro lat h; exact h
  | cons n ns ih => intro lat h; exact ih _ (add_node_wf lat n h)

/-- The lattice `tokenize` builds is bucket well-formed (shared helper). -/
theorem buildLattice_wf (dict : Dictionary) (text : List Nat) (lat : Lattice)
    (h : buildLattice dict text = some lat) : BucketsWF lat := by
  unfold buildLattice at h
  rcases Option.bind_eq_some.mp h with ⟨lat0, h0, hfold⟩
  refine foldlM_option_inv BucketsWF (processStart dict text)
    (List.range text.length) lat0 lat ?_ hfold (latticeNew_wf _ _ lat0 h0)
  intro a b _ a' hstep hP
  unfold processStart at hstep
  rcases Option.map_eq_some'.mp hstep with ⟨dn, -, rfl⟩
  exact foldl_add_node_wf _ a hP

/-- The predecessor invariant of the propagation: whenever `previous[r]`
names a real node `l`, node `l` ends where node `r` starts. -/
def PrevInv (nodes : List LatticeNode) (prev : List PrevId) : Prop :=
  ∀ (r l : Nat), prev[r]? = some (PrevId.node l) →
    ∃ nl nr : LatticeNode,
      nodes[l]? = some nl ∧ nodes[r]? = some nr ∧ nl.stop = nr.start

/-- The all-`NONE` initial `previous` array satisfies the invariant
(shared helper). -/
theorem prevInv_replicate (nodes : List LatticeNode) (n : Nat) :
    PrevInv nodes (List.replicate n PrevId.none) := by
  intro r l h
  rcases List.getElem?_eq_some_iff.mp h with ⟨hlt, hv⟩
  rw [List.getElem_replicate] at hv
  exact PrevId.noConfusion hv

/-- Seeding `BEGIN` preserves the invariant (shared helper). -/
theorem prevInv_set_begin (nodes : List LatticeNode) (prev : List PrevId)
    (i : Nat) (h : PrevInv nodes prev) :
    PrevInv nodes (prev.set i PrevId.begin) := by
  intro r l hr
  rw [List.getElem?_set] at hr
  by_cases hir : i = r
  · rw [if_pos hir] at hr
    split at hr
    · exact PrevId.noConfusion (Option.some.inj hr)
    · exact absurd hr (by simp)
  · rw [if_neg hir] at hr
    exact h r l hr

/-- A winning selection comes from the scanned bucket (shared helper). -/
theorem selectLeft_some_mem (prev : List PrevId) (ts : List Nat) :
    ∀ (entries : List EndEntry) (acc res : Option Nat × Nat),
      List.foldlM (selectStep prev ts) acc entries = some res →
      ∀ m, res.1 = some m → acc.1 = some m ∨ EndEntry.node m ∈ entries := by
  intro entries
  induction entries with
  | nil =>
    intro acc res h m hm
    simp only [List.foldlM_nil] at h
    cases h
    exact Or.inl hm
  | cons e rest ih =>
    intro acc res h m hm
    rw [List.foldlM_cons] at h
    cases e with
    | begin => exact absurd h (by simp [selectStep])
    | node l =>
      by_cases hvl : l < prev.length ∧ l < ts.length
      · have hsome : ∃ acc', selectStep prev ts acc (EndEntry.node l) = some acc' ∧
            (acc' = acc ∨ acc' = (some l, ts.get ⟨l, hvl.2⟩)) := by
          simp only [selectStep]
          rw [dif_pos hvl]
          by_cases h1 : prev.get ⟨l, hvl.1⟩ ≠ PrevId.none
          · rw [if_pos h1]
            by_cases h2 : acc.2 < ts.get ⟨l, hvl.2⟩
            · rw [if_pos h2]
              exact ⟨_, rfl, Or.inr rfl⟩
            · rw [if_neg h2]
              exact ⟨_, rfl, Or.inl rfl⟩
          · rw [if_neg h1]
            exact ⟨_, rfl, Or.inl rfl⟩
        obtain ⟨acc', hstep, hcase⟩ := hsome
        rw [hstep] at h
        have h' : List.foldlM (selectStep prev ts) acc' rest = some res := h
        rcases ih acc' res h' m hm with hacc' | hmem
        · rcases hcase with rfl | rfl
          · exact Or.inl hacc'
          · have : l = m := by simpa using hacc'
            subst this
            exact Or.inr (List.mem_cons_self _ _)
        · exact Or.inr (List.mem_cons_of_mem _ hmem)
      · have hnone : selectStep prev ts acc (EndEntry.node l) = Option.none := by
          simp only [selectStep]
          rw [dif_neg hvl]
        rw [hnone] at h
        exact absurd h (by simp)

/-- `processRight` preserves the predecessor invariant, given the bucket
facts of the position it serves (shared helper). -/
theorem processRight_prevInv (nodes : List LatticeNode) (eb : List EndEntry)
    (i : Nat) (st st' : List PrevId × List Nat) (r : Nat)
    (hwfe : ∀ l, EndEntry.node l ∈ eb →
      ∃ nd : LatticeNode, nodes[l]? = some nd ∧ nd.stop = i)
    (hwr : ∃ nd : LatticeNode, nodes[r]? = some nd ∧ nd.start = i)
    (hp : processRight eb st r = some st')
    (hinv : PrevInv nodes st.1) : PrevInv nodes st'.1 := by
  unfold processRight at hp
  rcases Option.bind_eq_some.mp hp with ⟨sel, hsel, hmatch⟩
  split at hmatch
  · cases hmatch
    exact hinv
  · rename_i m hselv
    split at hmatch
    · cases hmatch
      have hmem : EndEntry.node m ∈ eb := by
        rcases selectLeft_some_mem st.1 st.2 eb (Option.none, 0) sel hsel m hselv
          with h1 | h2
        · exact absurd h1 (by simp)
        · exact h2
      obtain ⟨nm, hnm, hnms⟩ := hwfe m hmem
      obtain ⟨nr, hnr, hnrs⟩ := hwr
      intro r' l' hr'
      rw [List.getElem?_set] at hr'
      by_cases hrr : r = r'
      · rw [if_pos hrr] at hr'
        split at hr'
        · have hml : PrevId.node m = PrevId.node l' := Option.some.inj hr'
          cases hml
          refine ⟨nm, nr, hnm, ?_, ?_⟩
          · rw [← hrr]
            exact hnr
          · rw [hnms, hnrs]
        · exact absurd hr' (by simp)
      · rw [if_neg hrr] at hr'
        exact hinv r' l' hr'
    · exact absurd hmatch (by simp)

/-- The backward walk follows `previous` links (shared helper). -/
theorem walk_chain (prev : List PrevId) :
    ∀ (fuel cur : Nat) (ids : List Nat), walk prev cur fuel = some ids →
      ∃ rest, ids = cur :: rest ∧
        List.Chain' (fun a b => prev[a]? = some (PrevId.node b)) ids := by
  intro fuel
  induction fuel with
  | zero =>
    intro cur ids h
    exact absurd h (by simp [walk])
  | succ f ih =>
    intro cur ids h
    unfold walk at h
    cases hv : prev[cur]? with
    | none =>
      rw [hv] at h
      exact absurd h (by simp)
    | some pv =>
      rw [hv] at h
      cases pv with
      | none => exact absurd h (by simp)
      | begin =>
        cases h
        exact ⟨[], rfl, List.chain'_singleton cur⟩
      | node l =>
        rcases Option.map_eq_some'.mp h with ⟨ids', hw, rfl⟩
        obtain ⟨rest', rfl, hch⟩ := ih l ids' hw
        exact ⟨l :: rest', rfl, List.chain'_cons.mpr ⟨hv, hch⟩⟩

/-- A chain property transports along an `Option`-monad `mapM`
(shared helper). -/
theorem chain'_mapM_option {α β : Type} (R : α → α → Prop) (S : β → β → Prop)
    (f : α → Option β)
    (hRS : ∀ a b fa fb, R a b → f a = some fa → f b = some fb → S fa fb) :
    ∀ (l : List α) (out : List β), l.mapM f = some out →
      List.Chain' R l → List.Chain' S out := by
  intro l
  induction l with
  | nil =>
    intro out h _
    simp only [List.mapM_nil] at h
    cases h
    exact List.chain'_nil
  | cons a t ih =>
    intro out h hc
    rw [List.mapM_cons] at h
    cases hfa : f a with
    | none =>
      rw [hfa] at h
      exact absurd h (by simp)
    | some fa =>
      rw [hfa] at h
      cases hmt : t.mapM f with
      | none =>
        rw [hmt] at h
        exact absurd h (by simp)
      | some t' =>
        rw [hmt] at h
        have hout : fa :: t' = out := by simpa using h
        subst hout
        cases t with
        | nil =>
          simp only [List.mapM_nil] at hmt
          cases hmt
          exact List.chain'_singleton fa
        | cons b t2 =>
          have hRab : R a b := (List.chain'_cons.mp hc).1
          have hct : List.Chain' R (b :: t2) := (List.chain'_cons.mp hc).2
          have ht' := ih t' hmt hct
          rw [List.mapM_cons] at hmt
          cases hfb : f b with
          | none =>
            rw [hfb] at hmt
            exact absurd hmt (by simp)
          | some fb =>
            rw [hfb] at hmt
            cases hmt2 : t2.mapM f with
            | none =>
              rw [hmt2] at hmt
              exact absurd hmt (by simp)
            | some t2' =>
              rw [hmt2] at hmt
              have ht2 : fb :: t2' = t' := by simpa using hmt
              subst ht2
              exact List.chain'_cons.mpr ⟨hRS a b fa fb hRab hfa hfb, ht'⟩

/-- The path `find_path` extracts from a bucket well-formed lattice is a
contiguous chain of lattice nodes (shared helper). -/
theorem find_path_chain (lat : Lattice) (hwf : BucketsWF lat)
    (path : List LatticeNode) (h : find_path lat = some path) :
    List.Chain' (fun a b => a.stop = b.start) path ∧
      ∀ n ∈ path, n ∈ lat.nodes := by
  unfold find_path at h
  split at h
  · cases h
    exact ⟨List.chain'_nil, fun n hn => absurd hn (List.not_mem_nil n)⟩
  · rcases Option.bind_eq_some.mp h with ⟨b0, hb0, h⟩
    rcases Option.bind_eq_some.mp h with ⟨prev1, hprev1, h⟩
    rcases Option.bind_eq_some.mp h with ⟨st, hst, h⟩
    rcases Option.bind_eq_some.mp h with ⟨endBucket, hendb, h⟩
    rcases Option.bind_eq_some.mp h with ⟨best, hbest, h⟩
    have hinv1 : PrevInv lat.nodes prev1 := by
      refine foldlM_option_inv (PrevInv lat.nodes) _ b0 _ prev1 ?_ hprev1
        (prevInv_replicate lat.nodes lat.nodes.length)
      intro a b _ a' hf hP
      split at hf
      · cases hf
        exact prevInv_set_begin lat.nodes a b hP
      · exact absurd hf (by simp)
    have hinvst : PrevInv lat.nodes st.1 := by
      refine foldlM_option_inv (fun s => PrevInv lat.nodes s.1) _
        (List.range' 1 (lat.length - 1))
        (prev1, lat.nodes.map (fun n => n.score)) st ?_ hst hinv1
      intro a i _ a' hf hP
      rcases Option.bind_eq_some.mp hf with ⟨sb, hsb, hf⟩
      rcases Option.bind_eq_some.mp hf with ⟨eb, heb, hf⟩
      refine foldlM_option_inv (fun s => PrevInv lat.nodes s.1)
        (processRight eb) sb a a' ?_ hf hP
      intro s r hr s' hpr hPs
      obtain ⟨nr, hnr, hnrs⟩ := hwf.1 i sb hsb r hr
      exact processRight_prevInv lat.nodes eb i s s' r
        (fun l hl => hwf.2 i eb heb l hl) ⟨nr, hnr, hnrs⟩ hpr hPs
    split at h
    · cases h
      exact ⟨List.chain'_nil, fun n hn => absurd hn (List.not_mem_nil n)⟩
    · rename_i m hbv
      rcases Option.bind_eq_some.mp h with ⟨ids, hwalk, hmap⟩
      obtain ⟨rest, hids, hch⟩ := walk_chain st.1 (lat.nodes.length + 1) m ids hwalk
      have hchrev :
          List.Chain' (fun a b => st.1[b]? = some (PrevId.node a)) ids.reverse :=
        List.chain'_reverse.mpr hch
      have hRS : ∀ (a b : Nat) (fa fb : LatticeNode),
          st.1[b]? = some (PrevId.node a) →
          lat.nodes[a]? = some fa → lat.nodes[b]? = some fb →
          fa.stop = fb.start := by
        intro a b fa fb hab hfa hfb
        obtain ⟨nl, nr2, hnl, hnr2, hstop⟩ := hinvst b a hab
        rw [hfa] at hnl
        rw [hfb] at hnr2
        have h1 : fa = nl := Option.some.inj hnl
        have h2 : fb = nr2 := Option.some.inj hnr2
        rw [h1, h2, hstop]
      have hchain : List.Chain' (fun a b => a.stop = b.start) path :=
        chain'_mapM_option _ _ (fun i => lat.nodes[i]?) hRS ids.reverse path
          hmap hchrev
      refine ⟨hchain, fun n hn => ?_⟩
      obtain ⟨idx, -, hidx⟩ := mapM_mem_source _ ids.reverse path hmap n hn
      rw [← List.get?_eq_getElem?] at hidx
      exact List.get?_mem hidx

/-- Claim C7.  For every input and dictionary, the node path underlying the
token sequence `tokenize` returns is non-overlapping and contiguous: each
node's `end` is the next node's `start`, and every node has `start < end`,
so the start/end offsets are strictly increasing and adjacent. -/
theorem tokenize_path_contiguous (dict : Dictionary) (text : List Nat)
    (path : List LatticeNode) (h : tokenizePath dict text = some path) :
    List.Chain' (fun a b => a.stop = b.start) path ∧
      ∀ n ∈ path, n.start < n.stop := by
  unfold tokenizePath at h
  rcases Option.bind_eq_some.mp h with ⟨lat, hbuild, hfp⟩
  obtain ⟨hchain, hmem⟩ :=
    find_path_chain lat (buildLattice_wf dict text lat hbuild) path hfp
  exact ⟨hchain, fun n hn =>
    (buildLattice_nodes_bounds dict text lat hbuild n (hmem n hn)).1⟩

/-- Witness for C7 on the input `"猫猫猫"` with the empty dictionary: the
path is the two single-character unknown nodes `[0,1)` and `[1,2)`,
adjacent and strictly increasing. -/
theorem tokenize_path_contiguous_witness :
    List.Chain' (fun a b => a.stop = b.start)
        [LatticeNode.mk Option.none 0 1 1, LatticeNode.mk Option.none 1 2 1] ∧
      ∀ n ∈ [LatticeNode.mk Option.none 0 1 1, LatticeNode.mk Option.none 1 2 1],
        n.start < n.stop :=
  tokenize_path_contiguous emptyDict [0x732B, 0x732B, 0x732B]
    [LatticeNode.mk Option.none 0 1 1, LatticeNode.mk Option.none 1 2 1]
    (by decide)

end Segmenter
